import Mathlib

/-!
Shallow embedding of the `std-signals` library (`src/signals.hpp`): a
signal owns an intrusive ring of connection nodes; `connect` appends a
node in front of the sentinel, `disconnect` removes the node immediately
when no emission is active and merely deactivates it (clears its slot and
sets the deferred-deactivation flag) otherwise, and `emit` walks the ring
invoking each active slot under a scoped reentrancy-counter increment,
sweeping deactivated nodes when the walk ends at depth zero.

The ring is modelled as a Lean list in ring order (sentinel's successor
first, sentinel implicit at the end); node addresses are modelled as
natural identifiers drawn from a per-signal allocation counter. Slots are
modelled syntactically (`SProg`): a slot may connect further slots,
disconnect by handle, recursively emit on the same signal, raise, and
finally return a boolean value. The interpreter is fuel-indexed so that
recursive emission is total.
-/

namespace StdSignals

/-- Slot behaviour, modelled syntactically. A slot finally returns a
boolean (`ret`), may raise (`thr`), and before returning may connect a
further slot, disconnect a handle on its signal, or recursively emit. -/
inductive SProg : Type where
  | ret (v : Bool)
  | thr
  | conn (body : SProg) (k : SProg)
  | disc (sid nid : Nat) (k : SProg)
  | emitS (k : SProg)
deriving DecidableEq, Repr

/-- One connection node of the ring (`details::node<Func>`): its address
(modelled as `id`) and its slot `m_function` (`none` = null function). -/
structure Node where
  id : Nat
  m_function : Option SProg
deriving DecidableEq, Repr

/-- State of one signal (`details::signal_base` plus the ring contents).
`m_head` records whether the sentinel exists (lazily created on first
connect); `ring` lists the nodes in ring order, starting at the
sentinel's successor; `nextId` models the address allocator. -/
structure SignalState where
  sigId : Nat
  m_head : Bool
  ring : List Node
  m_recursionDepth : Nat
  m_deactivations : Bool
  nextId : Nat
deriving DecidableEq, Repr

/-- A freshly constructed signal: no ring, zero recursion depth, no
pending deactivations. -/
def signalInit (sid : Nat) : SignalState :=
  ⟨sid, false, [], 0, false, 0⟩

/-- Model of `node_base::extract` applied to the first node carrying `nid`:
unlink it from the ring. -/
def ringRemove : List Node → Nat → List Node
  | [], _ => []
  | n :: t, nid => if n.id = nid then t else n :: ringRemove t nid

/-- Model of `node::deactivate` applied to the first node carrying `nid`: null its
function, leaving the ring links untouched. -/
def ringClear : List Node → Nat → List Node
  | [], _ => []
  | n :: t, nid => if n.id = nid then ⟨n.id, none⟩ :: t else n :: ringClear t nid

/-- Model of `signal_base::disconnect(void* id)`: scan the ring for the node whose
address matches; on a hit either extract-and-destroy it (recursion depth
zero) or deactivate it and set the deferred-deactivation flag. -/
def disconnect_id (s : SignalState) (nid : Nat) : Bool × SignalState :=
  if s.m_head then
    if s.ring.any (fun n => n.id = nid) then
      if s.m_recursionDepth = 0 then
        (true, { s with ring := ringRemove s.ring nid })
      else
        (true, { s with ring := ringClear s.ring nid, m_deactivations := true })
    else (false, s)
  else (false, s)

/-- A connection handle (`connection_handler`): a pair of a possibly-null
signal pointer and a possibly-null node pointer. -/
def Handle : Type := Option Nat × Option Nat
deriving instance DecidableEq, Repr for Handle

/-- Model of `signal_base::disconnect(const connection_handler&)`: reject handles
naming a different (or null) signal, then dispatch on the node pointer. -/
def disconnect_handler (s : SignalState) (h : Handle) : Bool × SignalState :=
  match h with
  | (some sid, rest) =>
      if sid = s.sigId then
        match rest with
        | some nid => disconnect_id s nid
        | none => (false, s)
      else (false, s)
  | (none, _) => (false, s)

/-- Model of `signal_base::connected(void* id)`: scan the ring for a node whose
address matches, comparing identities only. -/
def connected_id (s : SignalState) (nid : Nat) : Bool :=
  s.m_head && s.ring.any (fun n => n.id = nid)

/-- Model of `signal_base::connected(const connection_handler&)`. -/
def connected_handler (s : SignalState) (h : Handle) : Bool :=
  match h with
  | (some sid, some nid) => sid = s.sigId && connected_id s nid
  | _ => false

/-- Model of `signal::connect(slot_type f)`: lazily create the sentinel, then
splice a fresh node holding `f` immediately before the sentinel (i.e. at
the end of the ring list). The slot is inserted even when `f` is null. -/
def connect (s : SignalState) (f : Option SProg) : SignalState × Handle :=
  ({ s with
      m_head := true
      ring := s.ring ++ [⟨s.nextId, f⟩]
      nextId := s.nextId + 1 },
   (some s.sigId, some s.nextId))

/-- Model of `signal::connect(C* obj, mf)`: a null receiver is a no-op returning
the empty handle; otherwise the member call is adapted into a plain slot
(never null) and connected. -/
def connect_mem (s : SignalState) (obj : Option Unit) (body : SProg) :
    SignalState × Handle :=
  match obj with
  | some _ => connect s (some body)
  | none => (s, (none, none))

/-- The deferred sweep at the end of an outermost emission: extract and
destroy every node whose function is null, and clear the flag. -/
def sweepS (s : SignalState) : SignalState :=
  { s with
      ring := s.ring.filter (fun n => n.m_function.isSome)
      m_deactivations := false }

/-- Model of `details::ScopedIncrement` construction: bump the recursion depth. -/
def scopedIncrement (s : SignalState) : SignalState :=
  { s with m_recursionDepth := s.m_recursionDepth + 1 }

/-- Model of `details::ScopedIncrement` destruction: drop the recursion depth. -/
def scopedDecrement (s : SignalState) : SignalState :=
  { s with m_recursionDepth := s.m_recursionDepth - 1 }

/-- Model of `condition_all`: continue regardless of the slot return value. -/
def condition_all : Bool → Bool := fun _ => true

/-- Model of `condition_while<Result, T>`: continue while the slot returns `t`. -/
def condition_while (t : Bool) (r : Bool) : Bool := r == t

/-- Model of `aggregation_last` applied to the sequence of values handed to
`aggregate` in call order: keep only the latest, starting from the
value-initialised default. -/
def aggregation_last (vals : List Bool) : Bool :=
  vals.foldl (fun _ v => v) false

/-- Result of running one slot program: normal return with a value, or a
raised error; both carry the signal state. -/
inductive RunRes : Type where
  | ok (s : SignalState) (v : Bool)
  | thrown (s : SignalState)
deriving DecidableEq, Repr

/-- Result of one `emit`: normal completion or a propagated error; both
carry the state and the trace of invocations (node id, returned value)
performed directly by this emission's walk, in invocation order. -/
inductive EmitRes : Type where
  | ok (s : SignalState) (tr : List (Nat × Bool))
  | thrown (s : SignalState) (tr : List (Nat × Bool))
deriving DecidableEq, Repr

mutual

/-- Run one slot program against the signal state. Nested `emit` uses the
default `condition_all` controller. Fuel-indexed; `none` = out of fuel. -/
def runProg : Nat → SProg → SignalState → Option RunRes
  | 0, _, _ => none
  | _ + 1, .ret v, s => some (.ok s v)
  | _ + 1, .thr, s => some (.thrown s)
  | fuel + 1, .conn body k, s => runProg fuel k (connect s (some body)).1
  | fuel + 1, .disc sid nid k, s =>
      runProg fuel k (disconnect_handler s (some sid, some nid)).2
  | fuel + 1, .emitS k, s =>
      match emitFuel fuel condition_all s with
      | none => none
      | some (.ok s' _) => runProg fuel k s'
      | some (.thrown s' _) => some (.thrown s')

/-- The traversal loop of `signal::emit`, cursor at ring position `i`
(positions are stable during a walk: nodes are only appended or
deactivated in place while the depth is positive). Each iteration holds a
`ScopedIncrement`; an active slot is invoked, its value is handed to the
controller and then to the aggregation (recorded in `tr`), and the walk
stops when the controller reports false or the cursor reaches the
sentinel. A raised error propagates, still unwinding the increment. -/
def emitLoop :
    Nat → (Bool → Bool) → SignalState → Nat → List (Nat × Bool) → Option EmitRes
  | 0, _, _, _, _ => none
  | fuel + 1, ctrl, s, i, tr =>
      if h : i < s.ring.length then
        match (s.ring.get ⟨i, h⟩).m_function with
        | none => emitLoop fuel ctrl (scopedDecrement (scopedIncrement s)) (i + 1) tr
        | some p =>
            match runProg fuel p (scopedIncrement s) with
            | none => none
            | some (.thrown s2) => some (.thrown (scopedDecrement s2) tr)
            | some (.ok s2 v) =>
                if ctrl v then
                  emitLoop fuel ctrl (scopedDecrement s2) (i + 1)
                    (tr ++ [((s.ring.get ⟨i, h⟩).id, v)])
                else
                  some (.ok (scopedDecrement s2) (tr ++ [((s.ring.get ⟨i, h⟩).id, v)]))
      else some (.ok s tr)

/-- Model of `signal::emit`: no-op without a ring; otherwise walk the ring from
the sentinel's successor, then, if the recursion depth is exactly zero
and the deferred-deactivation flag is set, sweep the deactivated nodes
and clear the flag. -/
def emitFuel : Nat → (Bool → Bool) → SignalState → Option EmitRes
  | 0, _, _ => none
  | fuel + 1, ctrl, s =>
      if s.m_head then
        match emitLoop fuel ctrl s 0 [] with
        | none => none
        | some (.thrown s1 tr) => some (.thrown s1 tr)
        | some (.ok s1 tr) =>
            if s1.m_recursionDepth = 0 && s1.m_deactivations then
              some (.ok (sweepS s1) tr)
            else some (.ok s1 tr)
      else some (.ok s [])

end

/-- The signal state carried by a slot-run result. -/
def RunRes.state : RunRes → SignalState
  | .ok s _ => s
  | .thrown s => s

/-- The signal state carried by an emission result. -/
def EmitRes.state : EmitRes → SignalState
  | .ok s _ => s
  | .thrown s _ => s

/-- A ring is pure when every node's slot is either null or an
action-free slot that merely returns a value. -/
def pureRing (l : List Node) : Bool :=
  l.all (fun n =>
    match n.m_function with
    | none => true
    | some (.ret _) => true
    | some _ => false)

/-- The invocation trace an emission walk produces over a pure ring:
each active node contributes its id and returned value, in ring order. -/
def pureTrace : List Node → List (Nat × Bool)
  | [] => []
  | n :: t =>
      match n.m_function with
      | some (.ret v) => (n.id, v) :: pureTrace t
      | _ => pureTrace t

/-- What a completed slot invocation or emission preserves: the
recursion depth is restored, and — whenever the entry depth was positive,
i.e. some slot invocation of this signal was active — no node is ever
physically removed (the ring ids are only extended at the tail) and a
pending deferred-deactivation flag is never cleared. -/
def Preserved (s s' : SignalState) : Prop :=
  s'.m_recursionDepth = s.m_recursionDepth ∧
  (1 ≤ s.m_recursionDepth →
    (∃ t, s'.ring.map Node.id = s.ring.map Node.id ++ t) ∧
    (s.m_deactivations = true → s'.m_deactivations = true))

/-- What the emission walk itself preserves, unconditionally: every
iteration runs under a `ScopedIncrement`, so the depth during any slot
invocation is positive and no node is ever removed by the walk. -/
def PreservedLoop (s s' : SignalState) : Prop :=
  s'.m_recursionDepth = s.m_recursionDepth ∧
  (∃ t, s'.ring.map Node.id = s.ring.map Node.id ++ t) ∧
  (s.m_deactivations = true → s'.m_deactivations = true)

/-! ### Ring lemmas -/

theorem ringClear_map_id (l : List Node) (nid : Nat) :
    (ringClear l nid).map Node.id = l.map Node.id := by
  induction l with
  | nil => rfl
  | cons n t ih =>
      by_cases h : n.id = nid <;> simp [ringClear, h, ih]

theorem ringClear_length (l : List Node) (nid : Nat) :
    (ringClear l nid).length = l.length := by
  induction l with
  | nil => rfl
  | cons n t ih =>
      by_cases h : n.id = nid <;> simp [ringClear, h, ih]

theorem mem_ringClear_of_ne {l : List Node} {nid : Nat} {n : Node}
    (hm : n ∈ l) (hne : n.id ≠ nid) : n ∈ ringClear l nid := by
  induction l with
  | nil => cases hm
  | cons m t ih =>
      by_cases h : m.id = nid
      · rcases List.mem_cons.mp hm with rfl | hm'
        · exact absurd h hne
        · simp [ringClear, h, hm']
      · rcases List.mem_cons.mp hm with rfl | hm'
        · simp [ringClear, h]
        · simp [ringClear, h, ih hm']

theorem ringClear_cleared {l : List Node} {nid : Nat} {n : Node}
    (hnd : (l.map Node.id).Nodup)
    (hm : n ∈ ringClear l nid) (hid : n.id = nid) : n.m_function = none := by
  induction l with
  | nil => cases hm
  | cons m t ih =>
      simp only [List.map_cons, List.nodup_cons] at hnd
      by_cases h : m.id = nid
      · simp only [ringClear, h, if_pos rfl] at hm
        rcases List.mem_cons.mp hm with rfl | hm'
        · rfl
        · exfalso
          apply hnd.1
          rw [h]
          exact hid ▸ List.mem_map_of_mem Node.id hm'
      · simp only [ringClear, h, if_neg h] at hm
        rcases List.mem_cons.mp hm with rfl | hm'
        · exact absurd hid h
        · exact ih hnd.2 hm'

theorem ringClear_of_cleared {l : List Node} {nid : Nat}
    (h : ∀ n ∈ l, n.id = nid → n.m_function = none) : ringClear l nid = l := by
  induction l with
  | nil => rfl
  | cons m t ih =>
      by_cases hm : m.id = nid
      · have hfn : m.m_function = none := h m (List.mem_cons_self _ _) hm
        cases m with
        | mk i f =>
            simp only at hm hfn
            subst hm
            subst hfn
            simp [ringClear]
      · simp only [ringClear, if_neg hm]
        rw [ih (fun n hn hid => h n (List.mem_cons_of_mem _ hn) hid)]

theorem mem_of_mem_ringRemove {l : List Node} {nid : Nat} {n : Node}
    (hm : n ∈ ringRemove l nid) : n ∈ l := by
  induction l with
  | nil => cases hm
  | cons m t ih =>
      by_cases h : m.id = nid
      · simp only [ringRemove, if_pos h] at hm
        exact List.mem_cons_of_mem _ hm
      · simp only [ringRemove, if_neg h] at hm
        rcases List.mem_cons.mp hm with rfl | hm'
        · exact List.mem_cons_self _ _
        · exact List.mem_cons_of_mem _ (ih hm')

theorem mem_ringRemove_of_ne {l : List Node} {nid : Nat} {n : Node}
    (hm : n ∈ l) (hne : n.id ≠ nid) : n ∈ ringRemove l nid := by
  induction l with
  | nil => cases hm
  | cons m t ih =>
      by_cases h : m.id = nid
      · rcases List.mem_cons.mp hm with rfl | hm'
        · exact absurd h hne
        · simp [ringRemove, h, hm']
      · rcases List.mem_cons.mp hm with rfl | hm'
        · simp [ringRemove, h]
        · simp [ringRemove, h, ih hm']

theorem not_mem_map_ringRemove {l : List Node} {nid : Nat}
    (hnd : (l.map Node.id).Nodup) : nid ∉ (ringRemove l nid).map Node.id := by
  induction l with
  | nil => simp [ringRemove]
  | cons m t ih =>
      simp only [List.map_cons, List.nodup_cons] at hnd
      by_cases h : m.id = nid
      · subst h
        simp only [ringRemove, if_pos rfl]
        exact hnd.1
      · simp only [ringRemove, if_neg h, List.map_cons, List.mem_cons]
        push_neg
        exact ⟨fun he => h he.symm, ih hnd.2⟩

theorem ringRemove_length_lt {l : List Node} {nid : Nat}
    (hm : l.any (fun n => n.id = nid) = true) :
    (ringRemove l nid).length < l.length := by
  induction l with
  | nil => simp at hm
  | cons m t ih =>
      by_cases h : m.id = nid
      · simp [ringRemove, h]
      · simp only [List.any_cons, Bool.or_eq_true, decide_eq_true_eq] at hm
        rcases hm with hm | hm
        · exact absurd hm h
        · simpa [ringRemove, h] using ih hm

theorem any_id_iff_mem (l : List Node) (nid : Nat) :
    l.any (fun n => n.id = nid) = true ↔ nid ∈ l.map Node.id := by
  simp only [List.any_eq_true, decide_eq_true_eq, List.mem_map]

/-! ### Preservation combinators -/

theorem scopedDecrement_scopedIncrement (s : SignalState) :
    scopedDecrement (scopedIncrement s) = s := by
  cases s
  simp [scopedIncrement, scopedDecrement]

theorem preserved_refl (s : SignalState) : Preserved s s :=
  ⟨rfl, fun _ => ⟨⟨[], by simp⟩, fun h => h⟩⟩

theorem preservedLoop_refl (s : SignalState) : PreservedLoop s s :=
  ⟨rfl, ⟨[], by simp⟩, fun h => h⟩

theorem PreservedLoop.toPreserved {s s' : SignalState}
    (h : PreservedLoop s s') : Preserved s s' :=
  ⟨h.1, fun _ => ⟨h.2.1, h.2.2⟩⟩

theorem preserved_trans {s₁ s₂ s₃ : SignalState}
    (h₁ : Preserved s₁ s₂) (h₂ : Preserved s₂ s₃) : Preserved s₁ s₃ := by
  refine ⟨h₂.1.trans h₁.1, fun hd => ?_⟩
  have hd₂ : 1 ≤ s₂.m_recursionDepth := h₁.1 ▸ hd
  obtain ⟨t₁, ht₁⟩ := (h₁.2 hd).1
  obtain ⟨t₂, ht₂⟩ := (h₂.2 hd₂).1
  exact ⟨⟨t₁ ++ t₂, by rw [ht₂, ht₁, List.append_assoc]⟩,
    fun ha => (h₂.2 hd₂).2 ((h₁.2 hd).2 ha)⟩

theorem preservedLoop_trans {s₁ s₂ s₃ : SignalState}
    (h₁ : PreservedLoop s₁ s₂) (h₂ : PreservedLoop s₂ s₃) : PreservedLoop s₁ s₃ := by
  obtain ⟨t₁, ht₁⟩ := h₁.2.1
  obtain ⟨t₂, ht₂⟩ := h₂.2.1
  exact ⟨h₂.1.trans h₁.1,
    ⟨t₁ ++ t₂, by rw [ht₂, ht₁, List.append_assoc]⟩,
    fun ha => h₂.2.2 (h₁.2.2 ha)⟩

theorem connect_preservedLoop (s : SignalState) (f : Option SProg) :
    PreservedLoop s (connect s f).1 :=
  ⟨rfl, ⟨[s.nextId], by simp [connect]⟩, fun h => h⟩

theorem disconnect_handler_preserved (s : SignalState) (h : Handle) :
    Preserved s (disconnect_handler s h).2 := by
  rcases h with ⟨hs, hn⟩
  rcases hs with _ | sid
  · exact preserved_refl s
  · simp only [disconnect_handler]
    by_cases hsid : sid = s.sigId
    · rw [if_pos hsid]
      rcases hn with _ | nid
      · exact preserved_refl s
      · simp only [disconnect_id]
        by_cases hh : s.m_head
        · rw [if_pos hh]
          by_cases ha : s.ring.any (fun n => n.id = nid) = true
          · rw [if_pos ha]
            by_cases hd : s.m_recursionDepth = 0
            · rw [if_pos hd]
              exact ⟨rfl, fun hge => by omega⟩
            · rw [if_neg hd]
              exact ⟨rfl, fun _ => ⟨⟨[], by simp [ringClear_map_id]⟩, fun _ => rfl⟩⟩
          · rw [if_neg ha]
            exact preserved_refl s
        · rw [if_neg hh]
          exact preserved_refl s
    · rw [if_neg hsid]
      exact preserved_refl s

theorem preservedLoop_of_incr {s s₂ : SignalState}
    (h : Preserved (scopedIncrement s) s₂) : PreservedLoop s (scopedDecrement s₂) := by
  have hd : s₂.m_recursionDepth = s.m_recursionDepth + 1 := h.1
  have hge : 1 ≤ (scopedIncrement s).m_recursionDepth := by
    simp [scopedIncrement]
  obtain ⟨t, ht⟩ := (h.2 hge).1
  refine ⟨by simp [scopedDecrement, hd], ⟨t, ?_⟩, fun ha => ?_⟩
  · simpa [scopedDecrement, scopedIncrement] using ht
  · exact (h.2 hge).2 (by simpa [scopedIncrement] using ha)

theorem sweepS_depth (s : SignalState) :
    (sweepS s).m_recursionDepth = s.m_recursionDepth := rfl

/-! ### The main preservation invariant

Every completed slot invocation and every completed (or unwound)
emission restores the recursion counter, and, while any slot invocation
of the signal is active, never physically removes a node and never
clears a pending deferred-deactivation flag. -/

theorem preservation_main : ∀ fuel : Nat,
    (∀ p s r, runProg fuel p s = some r → Preserved s r.state) ∧
    (∀ ctrl s i tr r, emitLoop fuel ctrl s i tr = some r → PreservedLoop s r.state) ∧
    (∀ ctrl s r, emitFuel fuel ctrl s = some r → Preserved s r.state) := by
  intro fuel
  induction fuel with
  | zero =>
      refine ⟨?_, ?_, ?_⟩
      · intro p s r h
        simp [runProg] at h
      · intro ctrl s i tr r h
        simp [emitLoop] at h
      · intro ctrl s r h
        simp [emitFuel] at h
  | succ fuel ih =>
      obtain ⟨ihR, ihL, ihE⟩ := ih
      refine ⟨?_, ?_, ?_⟩
      · -- runProg
        intro p s r h
        cases p with
        | ret v =>
            simp only [runProg, Option.some.injEq] at h
            subst h
            exact preserved_refl s
        | thr =>
            simp only [runProg, Option.some.injEq] at h
            subst h
            exact preserved_refl s
        | conn body k =>
            simp only [runProg] at h
            exact preserved_trans (connect_preservedLoop s (some body)).toPreserved
              (ihR k _ r h)
        | disc sid nid k =>
            simp only [runProg] at h
            exact preserved_trans (disconnect_handler_preserved s (some sid, some nid))
              (ihR k _ r h)
        | emitS k =>
            simp only [runProg] at h
            split at h
            · cases h
            · next s' tr hE =>
                have h1 : Preserved s s' := by
                  have := ihE condition_all s _ hE
                  simpa [EmitRes.state] using this
                exact preserved_trans h1 (ihR k s' r h)
            · next s' tr hE =>
                simp only [Option.some.injEq] at h
                subst h
                have := ihE condition_all s _ hE
                simpa [RunRes.state, EmitRes.state] using this
      · -- emitLoop
        intro ctrl s i tr r h
        simp only [emitLoop] at h
        split at h
        · split at h
          · rw [scopedDecrement_scopedIncrement] at h
            exact ihL ctrl s (i + 1) tr r h
          · split at h
            · cases h
            · next s2 hR =>
                simp only [Option.some.injEq] at h
                subst h
                have h1 : Preserved (scopedIncrement s) s2 := by
                  have := ihR _ _ _ hR
                  simpa [RunRes.state] using this
                simpa [EmitRes.state] using preservedLoop_of_incr h1
            · next s2 v hR =>
                have h1 : Preserved (scopedIncrement s) s2 := by
                  have := ihR _ _ _ hR
                  simpa [RunRes.state] using this
                have h2 : PreservedLoop s (scopedDecrement s2) := preservedLoop_of_incr h1
                split at h
                · exact preservedLoop_trans h2 (ihL _ _ _ _ _ h)
                · simp only [Option.some.injEq] at h
                  subst h
                  simpa [EmitRes.state] using h2
        · simp only [Option.some.injEq] at h
          subst h
          exact preservedLoop_refl s
      · -- emitFuel
        intro ctrl s r h
        simp only [emitFuel] at h
        split at h
        · split at h
          · cases h
          · next s1 tr hL =>
              simp only [Option.some.injEq] at h
              subst h
              have := (ihL ctrl s 0 [] _ hL).toPreserved
              simpa [EmitRes.state] using this
          · next s1 tr hL =>
              have hP : PreservedLoop s s1 := by
                have := ihL ctrl s 0 [] _ hL
                simpa [EmitRes.state] using this
              split at h
              · next hcond =>
                  simp only [Option.some.injEq] at h
                  subst h
                  refine ⟨?_, fun hd => ?_⟩
                  · simpa [EmitRes.state, sweepS_depth] using hP.1
                  · exfalso
                    simp only [Bool.and_eq_true, decide_eq_true_eq] at hcond
                    have := hP.1
                    omega
              · simp only [Option.some.injEq] at h
                subst h
                simpa [EmitRes.state] using hP.toPreserved
        · simp only [Option.some.injEq] at h
          subst h
          exact preserved_refl s

/-! ### Emission over pure rings visits the nodes in ring order -/

theorem runProg_ret {fuel : Nat} (hf : 1 ≤ fuel) (v : Bool) (s : SignalState) :
    runProg fuel (.ret v) s = some (.ok s v) := by
  cases fuel with
  | zero => omega
  | succ fuel => rfl

theorem pureTrace_append (l l' : List Node) :
    pureTrace (l ++ l') = pureTrace l ++ pureTrace l' := by
  induction l with
  | nil => rfl
  | cons n t ih =>
      cases hfn : n.m_function with
      | none => simp [pureTrace, hfn, ih]
      | some p => cases p <;> simp [pureTrace, hfn, ih]

theorem emitLoop_pure :
    ∀ (fuel : Nat) (s : SignalState) (i : Nat) (tr : List (Nat × Bool)),
      pureRing s.ring = true → s.ring.length - i < fuel →
      emitLoop fuel condition_all s i tr
        = some (.ok s (tr ++ pureTrace (s.ring.drop i))) := by
  intro fuel
  induction fuel with
  | zero =>
      intro s i tr _ hf
      omega
  | succ fuel ih =>
      intro s i tr hp hf
      by_cases h : i < s.ring.length
      · have hdrop : s.ring.drop i = s.ring.get ⟨i, h⟩ :: s.ring.drop (i + 1) :=
          List.drop_eq_getElem_cons h
        have hmem : s.ring.get ⟨i, h⟩ ∈ s.ring := s.ring.get_mem _ _
        have hnp := List.all_eq_true.mp hp _ hmem
        simp only [emitLoop]
        rw [dif_pos h]
        cases hfn : (s.ring.get ⟨i, h⟩).m_function with
        | none =>
            simp only [hfn, scopedDecrement_scopedIncrement]
            rw [ih s (i + 1) tr hp (by omega), hdrop]
            simp only [pureTrace, hfn]
        | some p =>
            simp only [hfn] at hnp
            cases p with
            | ret v =>
                simp only [hfn]
                rw [runProg_ret (by omega) v (scopedIncrement s)]
                simp only [condition_all, if_pos rfl, scopedDecrement_scopedIncrement]
                rw [ih s (i + 1) (tr ++ [((s.ring.get ⟨i, h⟩).id, v)]) hp (by omega), hdrop]
                simp only [pureTrace, hfn, List.append_assoc, List.singleton_append]
                simp
            | thr => simp at hnp
            | conn body k => simp at hnp
            | disc sid nid k => simp at hnp
            | emitS k => simp at hnp
      · simp only [emitLoop]
        rw [dif_neg h]
        rw [List.drop_eq_nil_of_le (by omega)]
        simp [pureTrace]

theorem emitFuel_pure (s : SignalState) (fuel : Nat)
    (hp : pureRing s.ring = true) (hh : s.m_head = true)
    (hf : s.ring.length + 1 < fuel) :
    ∃ s', emitFuel fuel condition_all s = some (.ok s' (pureTrace s.ring)) := by
  cases fuel with
  | zero => omega
  | succ fuel =>
      simp only [emitFuel, hh, if_pos rfl]
      rw [emitLoop_pure fuel s 0 [] hp (by omega)]
      simp only [List.drop_zero, List.nil_append]
      by_cases hc : (decide (s.m_recursionDepth = 0) && s.m_deactivations) = true
      · exact ⟨sweepS s, by simp [hc]⟩
      · exact ⟨s, by simp [hc]⟩

/-! ### Branch characterizations of disconnect -/

theorem disconnect_handler_own (s : SignalState) (nid : Nat) :
    disconnect_handler s (some s.sigId, some nid) = disconnect_id s nid := by
  simp [disconnect_handler]

theorem disconnect_id_found_zero (s : SignalState) (nid : Nat)
    (hh : s.m_head = true) (ha : s.ring.any (fun n => n.id = nid) = true)
    (hd : s.m_recursionDepth = 0) :
    disconnect_id s nid = (true, { s with ring := ringRemove s.ring nid }) := by
  simp [disconnect_id, hh, ha, hd]

theorem disconnect_id_found_pos (s : SignalState) (nid : Nat)
    (hh : s.m_head = true) (ha : s.ring.any (fun n => n.id = nid) = true)
    (hd0 : ¬ s.m_recursionDepth = 0) :
    disconnect_id s nid
      = (true, { s with ring := ringClear s.ring nid, m_deactivations := true }) := by
  simp [disconnect_id, hh, ha, hd0]

theorem disconnect_id_not_found (s : SignalState) (nid : Nat)
    (hc : connected_id s nid = false) :
    disconnect_id s nid = (false, s) := by
  by_cases hh : s.m_head = true
  · have ha : s.ring.any (fun n => n.id = nid) = false := by
      simpa [connected_id, hh] using hc
    simp [disconnect_id, hh, ha]
  · simp [disconnect_id, hh]

theorem emitFuel_succ_head (fuel : Nat) (ctrl : Bool → Bool) (s : SignalState)
    (hh : s.m_head = true) :
    emitFuel (fuel + 1) ctrl s
      = match emitLoop fuel ctrl s 0 [] with
        | none => none
        | some (.thrown s1 tr) => some (.thrown s1 tr)
        | some (.ok s1 tr) =>
            if (decide (s1.m_recursionDepth = 0) && s1.m_deactivations) = true
            then some (.ok (sweepS s1) tr) else some (.ok s1 tr) := by
  simp [emitFuel, hh]

/-! ### Claim theorems -/

/-- C1: `disconnect(handle)` returns false and leaves the signal
unchanged when the handle does not identify a node currently reachable
from this signal's ring (a handle with a null or foreign signal pointer,
a null node pointer, or a node id not present in the ring — e.g. already
physically removed). When the node is reachable and the reentrancy
counter is zero, the node is extracted from the ring and destroyed
immediately (no longer reachable, all other nodes untouched) and
`disconnect` returns true. When the counter is non-zero, the node's slot
is cleared while the node stays linked in the ring (the ring ids are
unchanged), the deferred-deactivation flag is set, and `disconnect`
returns true. -/
theorem C1_disconnect_semantics (s : SignalState)
    (hnd : (s.ring.map Node.id).Nodup) :
    (∀ h : Handle, h.1 ≠ some s.sigId → disconnect_handler s h = (false, s)) ∧
    (disconnect_handler s (some s.sigId, none) = (false, s)) ∧
    (∀ nid, connected_id s nid = false →
        disconnect_handler s (some s.sigId, some nid) = (false, s)) ∧
    (∀ nid, connected_id s nid = true → s.m_recursionDepth = 0 →
        (disconnect_handler s (some s.sigId, some nid)).1 = true ∧
        connected_id (disconnect_handler s (some s.sigId, some nid)).2 nid = false ∧
        (∀ n ∈ s.ring, n.id ≠ nid →
            n ∈ (disconnect_handler s (some s.sigId, some nid)).2.ring) ∧
        (∀ n ∈ (disconnect_handler s (some s.sigId, some nid)).2.ring, n ∈ s.ring) ∧
        (disconnect_handler s (some s.sigId, some nid)).2.m_deactivations
          = s.m_deactivations) ∧
    (∀ nid, connected_id s nid = true → 1 ≤ s.m_recursionDepth →
        (disconnect_handler s (some s.sigId, some nid)).1 = true ∧
        (disconnect_handler s (some s.sigId, some nid)).2.ring.map Node.id
          = s.ring.map Node.id ∧
        (∀ n ∈ (disconnect_handler s (some s.sigId, some nid)).2.ring,
            n.id = nid → n.m_function = none) ∧
        (∀ n ∈ s.ring, n.id ≠ nid →
            n ∈ (disconnect_handler s (some s.sigId, some nid)).2.ring) ∧
        (disconnect_handler s (some s.sigId, some nid)).2.m_deactivations = true) := by
  refine ⟨?_, ?_, ?_, ?_, ?_⟩
  · rintro ⟨hs, hn⟩ hne
    rcases hs with _ | sid
    · rfl
    · have : sid ≠ s.sigId := fun he => hne (by rw [he])
      simp [disconnect_handler, this]
  · simp [disconnect_handler]
  · intro nid hc
    rw [disconnect_handler_own, disconnect_id_not_found s nid hc]
  · intro nid hc hd
    simp only [connected_id, Bool.and_eq_true] at hc
    obtain ⟨hh, ha⟩ := hc
    rw [disconnect_handler_own, disconnect_id_found_zero s nid hh ha hd]
    refine ⟨rfl, ?_, ?_, ?_, rfl⟩
    · simp only [connected_id, hh, Bool.true_and]
      rw [← Bool.not_eq_true]
      intro ha'
      exact not_mem_map_ringRemove hnd ((any_id_iff_mem _ _).mp ha')
    · intro n hn hne
      exact mem_ringRemove_of_ne hn hne
    · intro n hn
      exact mem_of_mem_ringRemove hn
  · intro nid hc hd
    simp only [connected_id, Bool.and_eq_true] at hc
    obtain ⟨hh, ha⟩ := hc
    have hd0 : ¬ s.m_recursionDepth = 0 := by omega
    rw [disconnect_handler_own, disconnect_id_found_pos s nid hh ha hd0]
    refine ⟨rfl, ringClear_map_id _ _, ?_, ?_, rfl⟩
    · intro n hn hid
      exact ringClear_cleared hnd hn hid
    · intro n hn hne
      exact mem_ringClear_of_ne hn hne

theorem C1_disconnect_semantics_witness :
    (disconnect_handler ⟨1, true, [⟨0, some (.ret true)⟩], 0, false, 1⟩
        (some 1, some 0)).1 = true ∧
    connected_id (disconnect_handler ⟨1, true, [⟨0, some (.ret true)⟩], 0, false, 1⟩
        (some 1, some 0)).2 0 = false ∧
    disconnect_handler ⟨1, true, [⟨0, some (.ret true)⟩], 0, false, 1⟩
        (some 2, some 0)
      = (false, ⟨1, true, [⟨0, some (.ret true)⟩], 0, false, 1⟩) := by
  have h := C1_disconnect_semantics ⟨1, true, [⟨0, some (.ret true)⟩], 0, false, 1⟩
    (by decide)
  exact ⟨(h.2.2.2.1 0 (by decide) rfl).1, (h.2.2.2.1 0 (by decide) rfl).2.1,
    h.1 (some 2, some 0) (by decide)⟩

/-- C6: `connected(handle)` is true exactly when the handle names this
signal and a node with the handle's node id is currently reachable in
the ring; it is false for a handle of a different signal; it stays true
for a node deactivated by `disconnect` during a still-active emission
(not yet swept), and becomes false once the node has been physically
removed. The check only compares identities against the live ring. -/
theorem C6_connected_semantics (s : SignalState)
    (hnd : (s.ring.map Node.id).Nodup) :
    (∀ sid nid, connected_handler s (some sid, some nid) = true ↔
        (sid = s.sigId ∧ s.m_head = true ∧ nid ∈ s.ring.map Node.id)) ∧
    (∀ h : Handle, h.1 ≠ some s.sigId → connected_handler s h = false) ∧
    (∀ nid, 1 ≤ s.m_recursionDepth → connected_id s nid = true →
        connected_id (disconnect_id s nid).2 nid = true) ∧
    (∀ nid, connected_id s nid = true → s.m_recursionDepth = 0 →
        connected_id (disconnect_id s nid).2 nid = false) := by
  refine ⟨?_, ?_, ?_, ?_⟩
  · intro sid nid
    simp [connected_handler, connected_id, Bool.and_eq_true, any_id_iff_mem,
      and_assoc]
  · rintro ⟨hs, hn⟩ hne
    rcases hs with _ | sid
    · rcases hn with _ | nid <;> rfl
    · have : sid ≠ s.sigId := fun he => hne (by rw [he])
      rcases hn with _ | nid
      · rfl
      · simp [connected_handler, this]
  · intro nid hd hc
    simp only [connected_id, Bool.and_eq_true] at hc
    obtain ⟨hh, ha⟩ := hc
    have hd0 : ¬ s.m_recursionDepth = 0 := by omega
    rw [disconnect_id_found_pos s nid hh ha hd0]
    simp only [connected_id, hh, Bool.true_and]
    rw [any_id_iff_mem, ringClear_map_id]
    exact (any_id_iff_mem _ _).mp ha
  · intro nid hc hd
    simp only [connected_id, Bool.and_eq_true] at hc
    obtain ⟨hh, ha⟩ := hc
    rw [disconnect_id_found_zero s nid hh ha hd]
    simp only [connected_id, hh, Bool.true_and]
    rw [← Bool.not_eq_true]
    intro ha'
    exact not_mem_map_ringRemove hnd ((any_id_iff_mem _ _).mp ha')

theorem C6_connected_semantics_witness :
    (connected_handler ⟨1, true, [⟨0, none⟩], 1, true, 1⟩ (some 1, some 0) = true ↔
        ((1 : Nat) = 1 ∧ true = true ∧ (0 : Nat) ∈ [(⟨0, none⟩ : Node)].map Node.id)) ∧
    connected_id (disconnect_id ⟨1, true, [⟨0, none⟩], 1, true, 1⟩ 0).2 0 = true := by
  have h := C6_connected_semantics ⟨1, true, [⟨0, none⟩], 1, true, 1⟩ (by decide)
  exact ⟨h.1 1 0, h.2.2.1 0 (by decide) (by decide)⟩

/-- C10: while an emission is in progress (reentrancy counter non-zero),
disconnecting a handle whose node was already deactivated earlier in the
same emission returns true again — the node is still reachable until the
sweep — and the whole signal state is left unchanged: the repeated call
re-clears the already-empty slot and re-sets the already-set flag. -/
theorem C10_repeat_disconnect_of_deactivated (s : SignalState) (nid : Nat)
    (hd : 1 ≤ s.m_recursionDepth) (hc : connected_id s nid = true)
    (hda : s.m_deactivations = true)
    (hcl : ∀ n ∈ s.ring, n.id = nid → n.m_function = none) :
    disconnect_handler s (some s.sigId, some nid) = (true, s) := by
  simp only [connected_id, Bool.and_eq_true] at hc
  obtain ⟨hh, ha⟩ := hc
  have hd0 : ¬ s.m_recursionDepth = 0 := by omega
  rw [disconnect_handler_own, disconnect_id_found_pos s nid hh ha hd0,
    ringClear_of_cleared hcl]
  cases s with
  | mk sigId mh ring rd md ni =>
      simp only at hda
      subst hda
      rfl

theorem C10_repeat_disconnect_of_deactivated_witness :
    disconnect_handler ⟨1, true, [⟨0, none⟩], 1, true, 1⟩ (some 1, some 0)
      = (true, ⟨1, true, [⟨0, none⟩], 1, true, 1⟩) :=
  C10_repeat_disconnect_of_deactivated ⟨1, true, [⟨0, none⟩], 1, true, 1⟩ 0
    (by decide) (by decide) (by decide) (by decide)

/-- C2: after the traversal loop of `emit` finishes, the deferred sweep
is performed if and only if the reentrancy counter is exactly zero at
that point and the deferred-deactivation flag is set. First part: a
nested emission — one starting while the counter is already positive,
i.e. triggered from inside a slot — never physically removes a node and
never clears a pending flag, for any controller, so a node deactivated
during recursive emission is physically removed only after the
outermost emission completes. Second part (the sweep direction, stated
on the post-loop state, which covers the flag being set mid-walk by a
slot's disconnect): when the walk ends with counter zero and the flag
set, `emit` returns the swept state — every empty-slotted node removed,
every active node kept, flag cleared. Third part (the no-sweep
direction): when the walk ends with the counter non-zero or the flag
unset, `emit` returns the post-loop state verbatim — nothing is
removed and the flag is not cleared. -/
theorem C2_deferred_sweep :
    (∀ fuel ctrl s s' tr, 1 ≤ s.m_recursionDepth →
        emitFuel fuel ctrl s = some (.ok s' tr) →
        s'.m_recursionDepth = s.m_recursionDepth ∧
        (∃ t, s'.ring.map Node.id = s.ring.map Node.id ++ t) ∧
        (s.m_deactivations = true → s'.m_deactivations = true)) ∧
    (∀ fuel ctrl s s1 tr, s.m_head = true →
        emitLoop fuel ctrl s 0 [] = some (.ok s1 tr) →
        s1.m_recursionDepth = 0 → s1.m_deactivations = true →
        emitFuel (fuel + 1) ctrl s = some (.ok (sweepS s1) tr) ∧
        (sweepS s1).m_deactivations = false ∧
        (∀ n ∈ (sweepS s1).ring, n.m_function.isSome = true) ∧
        (∀ n ∈ s1.ring, n.m_function.isSome = true → n ∈ (sweepS s1).ring)) ∧
    (∀ fuel ctrl s s1 tr, s.m_head = true →
        emitLoop fuel ctrl s 0 [] = some (.ok s1 tr) →
        ¬ (s1.m_recursionDepth = 0 ∧ s1.m_deactivations = true) →
        emitFuel (fuel + 1) ctrl s = some (.ok s1 tr)) := by
  refine ⟨?_, ?_, ?_⟩
  · intro fuel ctrl s s' tr hd hE
    have h := (preservation_main fuel).2.2 ctrl s _ hE
    simp only [EmitRes.state] at h
    exact ⟨h.1, (h.2 hd).1, (h.2 hd).2⟩
  · intro fuel ctrl s s1 tr hh hle hd1 hda1
    have hcond : (decide (s1.m_recursionDepth = 0) && s1.m_deactivations) = true := by
      simp [hd1, hda1]
    refine ⟨?_, rfl, ?_, ?_⟩
    · rw [emitFuel_succ_head fuel ctrl s hh, hle]
      simp [hcond]
    · intro n hn
      exact (List.mem_filter.mp hn).2
    · intro n hn hsome
      exact List.mem_filter.mpr ⟨hn, hsome⟩
  · intro fuel ctrl s s1 tr hh hle hnc
    have hcond : ¬ (decide (s1.m_recursionDepth = 0) && s1.m_deactivations) = true := by
      simp only [Bool.and_eq_true, decide_eq_true_eq]
      intro hand
      exact hnc ⟨hand.1, hand.2⟩
    rw [emitFuel_succ_head fuel ctrl s hh, hle]
    simp [hcond]

theorem C2_deferred_sweep_witness :
    ((⟨1, true, [⟨0, some (.ret true)⟩, ⟨1, none⟩], 1, true, 2⟩ :
        SignalState).m_recursionDepth
        = (⟨1, true, [⟨0, some (.ret true)⟩, ⟨1, none⟩], 1, true, 2⟩ :
        SignalState).m_recursionDepth ∧
      (∃ t, [(0 : Nat), 1] = [(0 : Nat), 1] ++ t) ∧
      (true = true → true = true)) ∧
    (emitFuel 10 condition_all
        ⟨1, true, [⟨0, some (.disc 1 1 (.ret true))⟩, ⟨1, some (.ret false)⟩],
          0, false, 2⟩
      = some (.ok
          (sweepS ⟨1, true, [⟨0, some (.disc 1 1 (.ret true))⟩, ⟨1, none⟩],
            0, true, 2⟩) [(0, true)]) ∧
      (sweepS ⟨1, true, [⟨0, some (.disc 1 1 (.ret true))⟩, ⟨1, none⟩],
          0, true, 2⟩).m_deactivations = false) ∧
    emitFuel 10 condition_all
        ⟨1, true, [⟨0, some (.ret true)⟩, ⟨1, none⟩], 0, false, 2⟩
      = some (.ok ⟨1, true, [⟨0, some (.ret true)⟩, ⟨1, none⟩], 0, false, 2⟩
          [(0, true)]) := by
  refine ⟨?_, ?_, ?_⟩
  · exact C2_deferred_sweep.1 10 condition_all
      ⟨1, true, [⟨0, some (.ret true)⟩, ⟨1, none⟩], 1, true, 2⟩
      ⟨1, true, [⟨0, some (.ret true)⟩, ⟨1, none⟩], 1, true, 2⟩
      [(0, true)] (by decide) rfl
  · have h := C2_deferred_sweep.2.1 9 condition_all
      ⟨1, true, [⟨0, some (.disc 1 1 (.ret true))⟩, ⟨1, some (.ret false)⟩],
        0, false, 2⟩
      ⟨1, true, [⟨0, some (.disc 1 1 (.ret true))⟩, ⟨1, none⟩], 0, true, 2⟩
      [(0, true)] rfl rfl rfl rfl
    exact ⟨h.1, h.2.1⟩
  · exact C2_deferred_sweep.2.2 9 condition_all
      ⟨1, true, [⟨0, some (.ret true)⟩, ⟨1, none⟩], 0, false, 2⟩
      ⟨1, true, [⟨0, some (.ret true)⟩, ⟨1, none⟩], 0, false, 2⟩
      [(0, true)] rfl rfl (by decide)

/-- C5: an error raised by a slot propagates out of `emit` (the result is
`thrown`) with the reentrancy counter correctly restored for every
unwound invocation. In the concrete scenario, the first slot deactivates
node 2 and returns, the second slot raises: the emission ends `thrown`
having invoked only the first slot, node 2 stays in the ring deactivated
with the flag pending; after removing the raising slot at depth zero, a
subsequent emit completes normally and performs the deferred sweep. -/
theorem C5_error_propagation :
    (∀ fuel ctrl s s' tr, emitFuel fuel ctrl s = some (.thrown s' tr) →
        s'.m_recursionDepth = s.m_recursionDepth) ∧
    (∀ a c d : Bool,
      emitFuel 10 condition_all
          (connect (connect (connect (connect (signalInit 1)
              (some (.disc 1 2 (.ret a)))).1 (some .thr)).1
              (some (.ret c))).1 (some (.ret d))).1
        = some (.thrown
            ⟨1, true, [⟨0, some (.disc 1 2 (.ret a))⟩, ⟨1, some .thr⟩,
              ⟨2, none⟩, ⟨3, some (.ret d)⟩], 0, true, 4⟩ [(0, a)]) ∧
      disconnect_handler
          ⟨1, true, [⟨0, some (.disc 1 2 (.ret a))⟩, ⟨1, some .thr⟩,
            ⟨2, none⟩, ⟨3, some (.ret d)⟩], 0, true, 4⟩ (some 1, some 1)
        = (true, ⟨1, true, [⟨0, some (.disc 1 2 (.ret a))⟩,
            ⟨2, none⟩, ⟨3, some (.ret d)⟩], 0, true, 4⟩) ∧
      emitFuel 10 condition_all
          ⟨1, true, [⟨0, some (.disc 1 2 (.ret a))⟩,
            ⟨2, none⟩, ⟨3, some (.ret d)⟩], 0, true, 4⟩
        = some (.ok ⟨1, true, [⟨0, some (.disc 1 2 (.ret a))⟩,
            ⟨3, some (.ret d)⟩], 0, false, 4⟩ [(0, a), (3, d)])) := by
  constructor
  · intro fuel ctrl s s' tr hE
    have h := (preservation_main fuel).2.2 ctrl s _ hE
    simpa [EmitRes.state] using h.1
  · intro a c d
    exact ⟨rfl, rfl, rfl⟩

theorem C5_error_propagation_witness :
    (⟨1, true, [⟨0, some (.disc 1 2 (.ret true))⟩, ⟨1, some .thr⟩,
        ⟨2, none⟩, ⟨3, some (.ret true)⟩], 0, true, 4⟩ :
        SignalState).m_recursionDepth
      = ((connect (connect (connect (connect (signalInit 1)
          (some (.disc 1 2 (.ret true)))).1 (some .thr)).1
          (some (.ret true))).1 (some (.ret true))).1).m_recursionDepth :=
  C5_error_propagation.1 10 condition_all _ _ [(0, true)] rfl

/-- C8: the reentrancy counter is managed by the scoped
increment/decrement discipline around each single slot invocation: every
completed slot program, walk segment, and emission — whether it returns
normally or unwinds with an error — leaves the counter exactly as it
found it, so at any point it counts the slot invocations of this signal
nested on the call stack. The counter is the quantity `disconnect`
consults: for a reachable node, `disconnect` shrinks the ring (immediate
physical removal) exactly when the counter is zero, and otherwise leaves
the ring length unchanged (deactivation). -/
theorem C8_reentrancy_counter :
    (∀ fuel p s r, runProg fuel p s = some r →
        r.state.m_recursionDepth = s.m_recursionDepth) ∧
    (∀ fuel ctrl s i tr r, emitLoop fuel ctrl s i tr = some r →
        r.state.m_recursionDepth = s.m_recursionDepth) ∧
    (∀ fuel ctrl s r, emitFuel fuel ctrl s = some r →
        r.state.m_recursionDepth = s.m_recursionDepth) ∧
    (∀ s nid, s.m_head = true → s.ring.any (fun n => n.id = nid) = true →
        ((disconnect_id s nid).2.ring.length < s.ring.length
          ↔ s.m_recursionDepth = 0)) := by
  refine ⟨?_, ?_, ?_, ?_⟩
  · intro fuel p s r h
    exact ((preservation_main fuel).1 p s r h).1
  · intro fuel ctrl s i tr r h
    exact ((preservation_main fuel).2.1 ctrl s i tr r h).1
  · intro fuel ctrl s r h
    exact ((preservation_main fuel).2.2 ctrl s r h).1
  · intro s nid hh ha
    constructor
    · intro hlt
      by_contra hd0
      rw [disconnect_id_found_pos s nid hh ha hd0] at hlt
      simp [ringClear_length] at hlt
    · intro hd
      rw [disconnect_id_found_zero s nid hh ha hd]
      exact ringRemove_length_lt ha

theorem C8_reentrancy_counter_witness :
    (RunRes.ok (signalInit 1) true).state.m_recursionDepth
      = (signalInit 1).m_recursionDepth ∧
    ((disconnect_id ⟨1, true, [⟨0, some (.ret true)⟩], 0, false, 1⟩ 0).2.ring.length
      < (⟨1, true, [⟨0, some (.ret true)⟩], 0, false, 1⟩ :
          SignalState).ring.length
      ↔ (⟨1, true, [⟨0, some (.ret true)⟩], 0, false, 1⟩ :
          SignalState).m_recursionDepth = 0) :=
  ⟨C8_reentrancy_counter.1 2 (.ret true) (signalInit 1) (.ok (signalInit 1) true) rfl,
   C8_reentrancy_counter.2.2.2 ⟨1, true, [⟨0, some (.ret true)⟩], 0, false, 1⟩ 0
     rfl (by decide)⟩

/-- C3: connecting slots A, B, C (in that order, with no intervening
disconnects) onto any signal whose existing slots are pure splices each
new node in front of the sentinel, and an emission then invokes the
ring in order: the existing nodes first, then A, then B, then C — the
walk starts at the sentinel's successor and follows the next pointers. -/
theorem C3_registration_order (s : SignalState) (a b c : Bool) (fuel : Nat)
    (hp : pureRing s.ring = true) (hf : s.ring.length + 4 < fuel) :
    ∃ s', emitFuel fuel condition_all
        (connect (connect (connect s (some (.ret a))).1 (some (.ret b))).1
          (some (.ret c))).1
      = some (.ok s' (pureTrace s.ring
          ++ [(s.nextId, a), (s.nextId + 1, b), (s.nextId + 2, c)])) := by
  have hring :
      (connect (connect (connect s (some (.ret a))).1 (some (.ret b))).1
          (some (.ret c))).1.ring
        = s.ring ++ [⟨s.nextId, some (.ret a)⟩, ⟨s.nextId + 1, some (.ret b)⟩,
            ⟨s.nextId + 2, some (.ret c)⟩] := by
    simp [connect]
  have hp3 : pureRing (connect (connect (connect s (some (.ret a))).1
      (some (.ret b))).1 (some (.ret c))).1.ring = true := by
    rw [hring, pureRing, List.all_append]
    rw [pureRing] at hp
    simp [hp]
  have hh : (connect (connect (connect s (some (.ret a))).1 (some (.ret b))).1
      (some (.ret c))).1.m_head = true := rfl
  have hlen : (connect (connect (connect s (some (.ret a))).1 (some (.ret b))).1
      (some (.ret c))).1.ring.length = s.ring.length + 3 := by
    rw [hring]
    simp
  obtain ⟨s', hs'⟩ := emitFuel_pure _ fuel hp3 hh (by omega)
  refine ⟨s', ?_⟩
  rw [hs', hring, pureTrace_append]
  simp [pureTrace]

theorem C3_registration_order_witness :
    ∃ s', emitFuel 9 condition_all
        (connect (connect (connect (signalInit 1) (some (.ret true))).1
          (some (.ret false))).1 (some (.ret true))).1
      = some (.ok s' (pureTrace (signalInit 1).ring
          ++ [((signalInit 1).nextId, true), ((signalInit 1).nextId + 1, false),
              ((signalInit 1).nextId + 2, true)])) :=
  C3_registration_order (signalInit 1) true false true 9 (by decide) (by decide)

/-- C4: during any emission (indeed, in any state) `connect` splices the
new node immediately before the sentinel, i.e. at the tail of the ring
list, ahead of the traversal cursor; consequently a slot connected by a
currently-executing slot is invoked later within the same emission pass,
as the concrete run shows: the first slot connects a new slot, and the
same pass then invokes the new slot after it. -/
theorem C4_connect_during_emission :
    (∀ (s : SignalState) (f : Option SProg),
        (connect s f).1.ring = s.ring ++ [⟨s.nextId, f⟩]) ∧
    (∀ a b : Bool,
        emitFuel 10 condition_all
            (connect (signalInit 1) (some (.conn (.ret b) (.ret a)))).1
          = some (.ok ⟨1, true, [⟨0, some (.conn (.ret b) (.ret a))⟩,
              ⟨1, some (.ret b)⟩], 0, false, 2⟩ [(0, a), (1, b)])) :=
  ⟨fun _ _ => rfl, fun _ _ => rfl⟩

theorem C4_connect_during_emission_witness :
    (connect (signalInit 1) none).1.ring
      = (signalInit 1).ring ++ [⟨(signalInit 1).nextId, none⟩] ∧
    emitFuel 10 condition_all
        (connect (signalInit 1) (some (.conn (.ret false) (.ret true)))).1
      = some (.ok ⟨1, true, [⟨0, some (.conn (.ret false) (.ret true))⟩,
          ⟨1, some (.ret false)⟩], 0, false, 2⟩ [(0, true), (1, false)]) :=
  ⟨C4_connect_during_emission.1 (signalInit 1) none,
   C4_connect_during_emission.2 true false⟩

/-- C9: with slots returning true, false and an arbitrary third slot
connected in that order, `emit` under the `Last` aggregation and the
`WhileEquals(true)` flow controller invokes the first slot, invokes the
second slot, stops the walk there — the third slot is never invoked —
and the aggregated result is false, the second slot's value. -/
theorem C9_last_while_true (p : SProg) :
    emitFuel 10 (condition_while true)
        (connect (connect (connect (signalInit 1) (some (.ret true))).1
          (some (.ret false))).1 (some p)).1
      = some (.ok (connect (connect (connect (signalInit 1) (some (.ret true))).1
          (some (.ret false))).1 (some p)).1 [(0, true), (1, false)]) ∧
    aggregation_last ([((0 : Nat), true), (1, false)].map Prod.snd) = false ∧
    ∀ v : Bool, ((2 : Nat), v) ∉ [((0 : Nat), true), (1, false)] := by
  refine ⟨rfl, rfl, ?_⟩
  intro v
  simp

theorem C9_last_while_true_witness :
    emitFuel 10 (condition_while true)
        (connect (connect (connect (signalInit 1) (some (.ret true))).1
          (some (.ret false))).1 (some .thr)).1
      = some (.ok (connect (connect (connect (signalInit 1) (some (.ret true))).1
          (some (.ret false))).1 (some .thr)).1 [(0, true), (1, false)]) ∧
    ((2 : Nat), true) ∉ [((0 : Nat), true), (1, false)] :=
  ⟨(C9_last_while_true .thr).1, (C9_last_while_true .thr).2.2 true⟩

/-- C7 counterexample: the plain `connect(slot)` form applied to a null
function is not a no-op — it inserts a node (whose slot is empty) into
the ring and returns a valid handle, and the deferred-deactivation flag
stays false even though a reachable node now has an empty slot without
any disconnect having been issued. -/
theorem C7_counterexample :
    (connect (signalInit 1) none).1.ring ≠ (signalInit 1).ring ∧
    (connect (signalInit 1) none).2 ≠ ((none, none) : Handle) ∧
    (connect (signalInit 1) none).1.ring = [⟨0, none⟩] ∧
    (connect (signalInit 1) none).1.m_deactivations = false := by
  refine ⟨?_, ?_, rfl, rfl⟩
  · decide
  · decide

/-- C7 (amended): only the member-function connect forms given a null
receiver pointer are no-ops returning an empty handle; the plain
`connect(slot)` form always inserts a node holding the given function —
even a null one — before the sentinel and returns a valid handle. Hence
a reachable node's slot may be empty either because it was deactivated
by `disconnect` during reentrant activity or because a null function was
connected. -/
theorem C7_connect_null_amended :
    (∀ (s : SignalState) (body : SProg),
        connect_mem s none body = (s, ((none, none) : Handle))) ∧
    (∀ (s : SignalState) (body : SProg),
        (connect_mem s (some ()) body).1.ring = s.ring ++ [⟨s.nextId, some body⟩]) ∧
    (∀ (s : SignalState) (f : Option SProg),
        (connect s f).1.ring = s.ring ++ [⟨s.nextId, f⟩] ∧
        (connect s f).2 = (some s.sigId, some s.nextId)) :=
  ⟨fun _ _ => rfl, fun _ _ => rfl, fun _ _ => ⟨rfl, rfl⟩⟩

end StdSignals
